import Mathlib

/-!
Verification of a line-oriented matcher for a restricted regular-expression
dialect (`src/main.rs`).  Strings are embedded as `List Char`; a `panic!` or
out-of-bounds slice / unwrap in the Rust source is modelled as `Option.none`,
so compilation returns `Option (List CharacterClass)` and the matcher returns
`Option Bool` (`none` = runtime failure, `some b` = a normal boolean result).
Character positions stand in for the source's byte indices (exact for ASCII
lines), and Rust's Unicode `char::is_alphanumeric` is modelled by the ASCII
`Char.isAlphanum`.
-/

/-- The compiled-node type, mirroring `enum CharacterClass` of the source.
Bracket-group payloads are the collected characters in order (`String` in the
source). -/
inductive CharacterClass where
  | Literal (c : Char)
  | CharGroup (s : List Char)
  | NegativeCharGroup (s : List Char)
  | Digit
  | Alphanumeric
  | StartAnchor (c : Char)
  | EndAnchor (cc : CharacterClass)
  | OneOrMore (cc : CharacterClass)
deriving DecidableEq, Repr

/-- Source function `collect_until`: consume characters up to (and including) the
first occurrence of `end_char`, returning the collected characters and the
remaining input; `none` models the `panic!` when `end_char` never occurs. -/
def collect_until : List Char → Char → Option (List Char × List Char)
  | [], _ => none
  | c :: rest, e =>
      if c = e then some ([], rest)
      else
        match collect_until rest e with
        | none => none
        | some (grp, rem) => some (c :: grp, rem)

/-- The scanning loop of `parse_pattern`: `acc` is the `char_classes` vector
built so far.  Each arm mirrors one arm of the `match ch` in the source; the
`none` results model the source's `panic!`s and `unwrap()`s on `None`. -/
def parse_pattern_loop (p : List Char) (acc : List CharacterClass) :
    Option (List CharacterClass) :=
  match p with
  | [] => some acc
  | ch :: rest =>
    if ch = '\\' then
      match rest with
      | [] => none
      | c :: rest2 =>
        if c = 'd' then parse_pattern_loop rest2 (acc ++ [CharacterClass.Digit])
        else if c = 'w' then parse_pattern_loop rest2 (acc ++ [CharacterClass.Alphanumeric])
        else if c = '\\' ∨ c = '[' ∨ c = '^' ∨ c = '$' ∨ c = '+' then
          parse_pattern_loop rest2 (acc ++ [CharacterClass.Literal c])
        else none
    else if ch = '[' then
      match rest with
      | [] => none
      | c :: rest2 =>
        if c = '^' then
          match h : collect_until rest2 ']' with
          | none => none
          | some (grp, rem) =>
              parse_pattern_loop rem (acc ++ [CharacterClass.NegativeCharGroup grp])
        else
          match h : collect_until (c :: rest2) ']' with
          | none => none
          | some (grp, rem) =>
              parse_pattern_loop rem (acc ++ [CharacterClass.CharGroup grp])
    else if ch = '^' then
      match rest with
      | [] => none
      | c :: rest2 =>
        if acc.isEmpty then parse_pattern_loop rest2 (acc ++ [CharacterClass.StartAnchor c])
        else none
    else if ch = '$' then
      if rest.isEmpty then
        match acc.getLast? with
        | none => parse_pattern_loop rest acc
        | some last =>
            parse_pattern_loop rest (acc.dropLast ++ [CharacterClass.EndAnchor last])
      else none
    else if ch = '+' then
      match acc.getLast? with
      | none => none
      | some last =>
          parse_pattern_loop rest (acc.dropLast ++ [CharacterClass.OneOrMore last])
    else parse_pattern_loop rest (acc ++ [CharacterClass.Literal ch])
termination_by p.length
decreasing_by
  all_goals
    (have hlt : ∀ (l : List Char) (grp rem : List Char),
        collect_until l ']' = some (grp, rem) → rem.length < l.length := by
      intro l
      induction l with
      | nil =>
          intro grp rem hcc
          simp [collect_until] at hcc
      | cons c rest ih =>
          intro grp rem hcc
          simp only [collect_until] at hcc
          split at hcc
          · cases hcc
            simp
          · cases hc : collect_until rest ']' with
            | none =>
                rw [hc] at hcc
                cases hcc
            | some pr =>
                rw [hc] at hcc
                cases pr with
                | mk g r =>
                    cases hcc
                    exact Nat.lt_trans (ih _ _ hc) (Nat.lt_succ_self _)
     simp_wf
     try (have hlt2 := hlt _ _ _ h; simp only [List.length_cons] at hlt2 ⊢)
     try omega)

/-- Source function `parse_pattern`: compile a pattern string into the node
sequence, `none` modelling a `CompileError` panic. -/
def parse_pattern (p : List Char) : Option (List CharacterClass) :=
  parse_pattern_loop p []

/-- Source function `match_pattern`: its `HashSet` built from a group payload and
iterated with `any` is boolean-equivalent to `any` over the payload list, and
Rust's `str::contains(char)` / `str::contains(pred)` is membership / `any` over
the characters. -/
def match_pattern (input_line : List Char) (pattern : CharacterClass) : Bool :=
  match pattern with
  | CharacterClass.Literal c => input_line.contains c
  | CharacterClass.NegativeCharGroup group =>
      !(group.any (fun c => input_line.contains c))
  | CharacterClass.CharGroup group =>
      group.any (fun c => input_line.contains c)
  | CharacterClass.Digit => input_line.any (fun x => x.isDigit)
  | CharacterClass.Alphanumeric => input_line.any (fun x => x.isAlphanum)
  | CharacterClass.StartAnchor c =>
      match input_line with
      | [] => false
      | x :: _ => x == c
  | CharacterClass.EndAnchor cc => match_pattern input_line cc
  | CharacterClass.OneOrMore cc => match_pattern input_line cc

/-- Source function `handle_quantifier`: on a `OneOrMore` node, greedily advance
the iterator past every next character satisfying the wrapped node; otherwise
leave the iterator untouched.  Returns the remaining characters. -/
def handle_quantifier (char_iter : List Char) (pattern : CharacterClass) :
    List Char :=
  match pattern with
  | CharacterClass.OneOrMore cc =>
      char_iter.dropWhile (fun next_ch => match_pattern [next_ch] cc)
  | _ => char_iter

/-- One inner `while let` walk of `pattern_matches`, starting at a given input
suffix with the (sub)sequence of nodes still to satisfy.  `false` models both a
`break` (failed start offset) and iterator exhaustion; the `true` cases are the
source's `return true`. -/
def walk (input : List Char) (ps : List CharacterClass) : Bool :=
  match input, ps with
  | [], _ => false
  | _ :: _, [] => false
  | ch :: rest, p :: ptail =>
      if match_pattern [ch] p then
        let rest2 := handle_quantifier rest p
        match ptail with
        | [] =>
            match p with
            | CharacterClass.EndAnchor _ => rest2.isEmpty
            | _ => true
        | _ :: _ => walk rest2 ptail
      else false

/-- The walk instrumented with the remaining (unconsumed) input at the moment the
walk returns `true`: `some rem` iff the walk succeeds with `rem` left over. -/
def walkRem (input : List Char) (ps : List CharacterClass) :
    Option (List Char) :=
  match input, ps with
  | [], _ => none
  | _ :: _, [] => none
  | ch :: rest, p :: ptail =>
      if match_pattern [ch] p then
        let rest2 := handle_quantifier rest p
        match ptail with
        | [] =>
            match p with
            | CharacterClass.EndAnchor _ => if rest2.isEmpty then some rest2 else none
            | _ => some rest2
        | _ :: _ => walkRem rest2 ptail
      else none

/-- The `StartAnchor` pre-check of `pattern_matches`: testing the slice
`input_str[0..1]` against `patterns[0]`, which panics (`none`) on an empty
line; `some false` is the early `return false`, `some true` means fall
through. -/
def startAnchorCheck (input : List Char) (patterns : List CharacterClass) :
    Option Bool :=
  match patterns.head? with
  | some (CharacterClass.StartAnchor c) =>
      match input with
      | [] => none
      | x :: _ => some (match_pattern [x] (CharacterClass.StartAnchor c))
  | _ => some true

/-- The `EndAnchor` pre-check of `pattern_matches`: testing the slice
`input_str[len-1..len]` against `patterns.last()`, which panics (`none`) on an
empty line (index underflow). -/
def endAnchorCheck (input : List Char) (patterns : List CharacterClass) :
    Option Bool :=
  match patterns.getLast? with
  | some (CharacterClass.EndAnchor cc) =>
      match input.getLast? with
      | none => none
      | some x => some (match_pattern [x] (CharacterClass.EndAnchor cc))
  | _ => some true

/-- Source function `pattern_matches`: compile the pattern, run the two anchor
pre-checks, then try every start offset `i` with `walk`.  With an empty node
sequence the first inner-loop access `patterns[0]` panics (`none`) as soon as
the line is non-empty; an empty line skips the outer loop and returns
`false`. -/
def pattern_matches (input_str pattern_str : List Char) : Option Bool :=
  match parse_pattern pattern_str with
  | none => none
  | some patterns =>
    match startAnchorCheck input_str patterns with
    | none => none
    | some false => some false
    | some true =>
      match endAnchorCheck input_str patterns with
      | none => none
      | some false => some false
      | some true =>
        match patterns with
        | [] => if input_str.isEmpty then some false else none
        | _ :: _ =>
            some ((List.range input_str.length).any
              (fun i => walk (input_str.drop i) patterns))

/-- No `StartAnchor` occurs as an element of the sequence except as its head:
the invariant the compiler maintains on `char_classes`. -/
def noLateStart (l : List CharacterClass) : Prop :=
  ∀ c, CharacterClass.StartAnchor c ∈ l → l.head? = some (CharacterClass.StartAnchor c)

/-- Modelled from the spec (§4.1 error list): the conditions under which
compilation is said to fail, as a scanner over the pattern.  `hasNode` records
whether any node has been compiled yet (for the whole pattern this starts
`false`; it is also how "`^` anywhere but as the first character" and "`+` with
no preceding node" manifest during the scan, since every non-failing token
except a final `$` compiles a node).  With `strict = false` the list is read
literally, so a leading `^` that ends the pattern is NOT a failure; with
`strict = true` that case is additionally counted as a failure (the amended
reading). -/
def specScan (strict : Bool) (p : List Char) (hasNode : Bool) : Bool :=
  match p with
  | [] => false
  | ch :: rest =>
    if ch = '\\' then
      match rest with
      | [] => true
      | c :: rest2 =>
          if c = 'd' ∨ c = 'w' ∨ c = '\\' ∨ c = '[' ∨ c = '^' ∨ c = '$' ∨ c = '+' then
            specScan strict rest2 true
          else true
    else if ch = '[' then
      match rest with
      | [] => true
      | c :: rest2 =>
          if c = '^' then
            match h : collect_until rest2 ']' with
            | none => true
            | some (_, rem) => specScan strict rem true
          else
            match h : collect_until (c :: rest2) ']' with
            | none => true
            | some (_, rem) => specScan strict rem true
    else if ch = '^' then
      if hasNode then true
      else
        match rest with
        | [] => strict
        | _ :: rest2 => specScan strict rest2 true
    else if ch = '$' then !rest.isEmpty
    else if ch = '+' then
      if hasNode then specScan strict rest hasNode else true
    else specScan strict rest true
termination_by p.length
decreasing_by
  all_goals
    (have hlt : ∀ (l : List Char) (grp rem : List Char),
        collect_until l ']' = some (grp, rem) → rem.length < l.length := by
      intro l
      induction l with
      | nil =>
          intro grp rem hcc
          simp [collect_until] at hcc
      | cons c rest ih =>
          intro grp rem hcc
          simp only [collect_until] at hcc
          split at hcc
          · cases hcc
            simp
          · cases hc : collect_until rest ']' with
            | none =>
                rw [hc] at hcc
                cases hcc
            | some pr =>
                rw [hc] at hcc
                cases pr with
                | mk g r =>
                    cases hcc
                    exact Nat.lt_trans (ih _ _ hc) (Nat.lt_succ_self _)
     simp_wf
     try (have hlt2 := hlt _ _ _ h; simp only [List.length_cons] at hlt2 ⊢)
     try omega)

theorem walk_eq_isSome (input : List Char) (ps : List CharacterClass) :
    walk input ps = (walkRem input ps).isSome := by
  induction ps generalizing input with
  | nil => cases input <;> simp [walk, walkRem]
  | cons p ptail ih =>
      cases input with
      | nil => simp [walk, walkRem]
      | cons ch rest =>
          by_cases hm : match_pattern [ch] p
          · cases ptail with
            | nil =>
                cases p <;> simp [walk, walkRem, hm]
                rename_i cc
                cases hlist : handle_quantifier rest (CharacterClass.EndAnchor cc) <;>
                  simp [hlist]
            | cons q qtail => simp [walk, walkRem, hm, ih]
          · simp [walk, walkRem, hm]

theorem walkRem_endAnchor_nil {ps : List CharacterClass} {cc : CharacterClass}
    (hlast : ps.getLast? = some (CharacterClass.EndAnchor cc)) :
    ∀ {input rem : List Char}, walkRem input ps = some rem → rem = [] := by
  induction ps with
  | nil => simp at hlast
  | cons p ptail ih =>
      intro input rem hw
      cases input with
      | nil => simp [walkRem] at hw
      | cons ch rest =>
          cases ptail with
          | nil =>
              simp at hlast
              subst hlast
              by_cases hm : match_pattern [ch] (CharacterClass.EndAnchor cc) <;>
                simp [walkRem, hm] at hw
              rw [← hw.2]
              exact hw.1
          | cons q qtail =>
              rw [List.getLast?_cons_cons] at hlast
              by_cases hm : match_pattern [ch] p <;> simp [walkRem, hm] at hw
              exact ih hlast hw

theorem noLateStart_nil : noLateStart [] := by
  intro c hc
  simp at hc

theorem noLateStart_append {acc : List CharacterClass} {x : CharacterClass}
    (hx : ∀ c, x ≠ CharacterClass.StartAnchor c) (h : noLateStart acc) :
    noLateStart (acc ++ [x]) := by
  intro c hc
  rcases List.mem_append.mp hc with hmem | hmem
  · have hhd := h c hmem
    have hne : acc ≠ [] := by
      intro hnil
      rw [hnil] at hmem
      simp at hmem
    rw [List.head?_append_of_ne_nil _ hne]
    exact hhd
  · simp at hmem
    exact absurd hmem.symm (hx c)

theorem noLateStart_dropLast_append {acc : List CharacterClass} {x : CharacterClass}
    (hx : ∀ c, x ≠ CharacterClass.StartAnchor c) (h : noLateStart acc) :
    noLateStart (acc.dropLast ++ [x]) := by
  intro c hc
  rcases List.mem_append.mp hc with hmem | hmem
  · have hhd := h c (List.dropLast_subset acc hmem)
    have hne : acc.dropLast ≠ [] := by
      intro hnil
      rw [hnil] at hmem
      simp at hmem
    rw [List.head?_append_of_ne_nil _ hne]
    rw [List.head?_dropLast]
    have hlen : 1 < acc.length := by
      rcases acc with _ | ⟨a, _ | ⟨b, t⟩⟩
      · simp at hhd
      · simp at hne
      · simp
    rw [if_pos hlen]
    exact hhd
  · simp at hmem
    exact absurd hmem.symm (hx c)

theorem isEmpty_append_singleton {α : Type} (l : List α) (x : α) :
    (l ++ [x]).isEmpty = false := by
  cases l <;> simp

theorem ne_nil_of_getLast?_eq_some {α : Type} {l : List α} {x : α}
    (h : l.getLast? = some x) : l.isEmpty = false := by
  cases l
  · simp at h
  · simp

theorem parse_loop_isNone_eq_specScan (p : List Char) (acc : List CharacterClass) :
    (parse_pattern_loop p acc).isNone = specScan true p (!acc.isEmpty) := by
  induction p, acc using parse_pattern_loop.induct
  case case17 acc rest2 h _ _ _ =>
    have h2 : rest2.isEmpty = false := by
      cases hb : rest2.isEmpty
      · rfl
      · exact absurd hb h
    rw [parse_pattern_loop.eq_def, specScan.eq_def]
    simp [h2]
  case case18 acc rest2 h _ _ _ _ =>
    have hnil : acc = [] := List.getLast?_eq_none_iff.mp h
    subst hnil
    rw [parse_pattern_loop.eq_def, specScan.eq_def]
    simp
  case case19 acc rest2 last h _ _ _ _ ih =>
    have h2 : acc.isEmpty = false := ne_nil_of_getLast?_eq_some h
    rw [parse_pattern_loop.eq_def, specScan.eq_def]
    simp [h, h2, ih, isEmpty_append_singleton]
  case case20 acc c rest2 h1 h2 h3 h4 h5 ih =>
    rw [parse_pattern_loop.eq_def, specScan.eq_def]
    simp [h1, h2, h3, h4, h5, ih, isEmpty_append_singleton]
  all_goals
    simp_all [parse_pattern_loop, specScan, List.isEmpty_iff, List.getLast?_eq_none_iff,
      isEmpty_append_singleton] <;>
    (try split <;> simp_all [isEmpty_append_singleton])

theorem noLateStart_singleton (x : CharacterClass) : noLateStart [x] := by
  intro c hc
  simp at hc
  subst hc
  rfl

theorem parse_loop_noLateStart (p : List Char) (acc : List CharacterClass) :
    ∀ ps, parse_pattern_loop p acc = some ps → noLateStart acc → noLateStart ps := by
  induction p, acc using parse_pattern_loop.induct
  case case1 acc =>
    intro ps hp hinv
    rw [parse_pattern_loop.eq_def] at hp
    simp at hp
    subst hp
    exact hinv
  case case2 acc =>
    intro ps hp hinv
    rw [parse_pattern_loop.eq_def] at hp
    simp at hp
  case case3 acc rest2 ih =>
    intro ps hp hinv
    rw [parse_pattern_loop.eq_def] at hp
    simp at hp
    exact ih ps hp (noLateStart_append (fun c h => CharacterClass.noConfusion h) hinv)
  case case4 acc rest2 hne ih =>
    intro ps hp hinv
    rw [parse_pattern_loop.eq_def] at hp
    simp at hp
    exact ih ps hp (noLateStart_append (fun c h => CharacterClass.noConfusion h) hinv)
  case case5 acc c rest2 h1 h2 h3 ih =>
    intro ps hp hinv
    rw [parse_pattern_loop.eq_def] at hp
    simp [h1, h2, h3] at hp
    exact ih ps hp (noLateStart_append (fun c h => CharacterClass.noConfusion h) hinv)
  case case6 acc c rest2 h1 h2 h3 =>
    intro ps hp hinv
    rw [parse_pattern_loop.eq_def] at hp
    simp [h1, h2, h3] at hp
  case case7 acc hne =>
    intro ps hp hinv
    rw [parse_pattern_loop.eq_def] at hp
    simp at hp
  case case8 acc rest2 hcoll hne =>
    intro ps hp hinv
    rw [parse_pattern_loop.eq_def] at hp
    simp at hp
    split at hp
    · simp at hp
    · rename_i grp' rem' heq
      rw [hcoll] at heq
      cases heq
  case case9 acc rest2 grp rem hcoll hne ih =>
    intro ps hp hinv
    rw [parse_pattern_loop.eq_def] at hp
    simp at hp
    split at hp
    · simp at hp
    · rename_i grp' rem' heq
      rw [hcoll] at heq
      cases heq
      exact ih ps hp (noLateStart_append (fun c h => CharacterClass.noConfusion h) hinv)
  case case10 acc c rest2 hc hcoll hne =>
    intro ps hp hinv
    rw [parse_pattern_loop.eq_def] at hp
    simp [hc] at hp
    split at hp
    · simp at hp
    · rename_i grp' rem' heq
      rw [hcoll] at heq
      cases heq
  case case11 acc c rest2 hc grp rem hcoll hne ih =>
    intro ps hp hinv
    rw [parse_pattern_loop.eq_def] at hp
    simp [hc] at hp
    split at hp
    · simp at hp
    · rename_i grp' rem' heq
      rw [hcoll] at heq
      cases heq
      exact ih ps hp (noLateStart_append (fun c h => CharacterClass.noConfusion h) hinv)
  case case12 acc h1 h2 =>
    intro ps hp hinv
    rw [parse_pattern_loop.eq_def] at hp
    simp at hp
  case case13 acc c rest2 hem h1 h2 ih =>
    intro ps hp hinv
    have hnil : acc = [] := List.isEmpty_iff.mp hem
    subst hnil
    rw [parse_pattern_loop.eq_def] at hp
    simp at hp
    exact ih ps (by simpa using hp) (by simpa using noLateStart_singleton _)
  case case14 acc c rest2 hem h1 h2 =>
    intro ps hp hinv
    rw [parse_pattern_loop.eq_def] at hp
    simp [hem] at hp
  case case15 acc rest2 hem hnone h1 h2 h3 ih =>
    intro ps hp hinv
    rw [parse_pattern_loop.eq_def] at hp
    simp [hem, hnone] at hp
    exact ih ps hp hinv
  case case16 acc rest2 hem last hsome h1 h2 h3 ih =>
    intro ps hp hinv
    rw [parse_pattern_loop.eq_def] at hp
    simp [hem, hsome] at hp
    exact ih ps hp (noLateStart_dropLast_append (fun c h => CharacterClass.noConfusion h) hinv)
  case case17 acc rest2 hem h1 h2 h3 =>
    intro ps hp hinv
    have h4 : rest2.isEmpty = false := by
      cases hb : rest2.isEmpty
      · rfl
      · exact absurd hb hem
    rw [parse_pattern_loop.eq_def] at hp
    simp [h4] at hp
  case case18 acc rest2 hnone h1 h2 h3 h4 =>
    intro ps hp hinv
    rw [parse_pattern_loop.eq_def] at hp
    simp [hnone] at hp
  case case19 acc rest2 last hsome h1 h2 h3 h4 ih =>
    intro ps hp hinv
    rw [parse_pattern_loop.eq_def] at hp
    simp [hsome] at hp
    exact ih ps hp (noLateStart_dropLast_append (fun c h => CharacterClass.noConfusion h) hinv)
  case case20 acc c rest2 h1 h2 h3 h4 h5 ih =>
    intro ps hp hinv
    rw [parse_pattern_loop.eq_def] at hp
    simp [h1, h2, h3, h4, h5] at hp
    exact ih ps hp (noLateStart_append (fun c h => CharacterClass.noConfusion h) hinv)

theorem parse_startAnchor_head {pat : List Char} {ps : List CharacterClass} {c : Char}
    (hp : parse_pattern pat = some ps)
    (hmem : CharacterClass.StartAnchor c ∈ ps) :
    ps.head? = some (CharacterClass.StartAnchor c) :=
  parse_loop_noLateStart pat [] ps hp noLateStart_nil c hmem

theorem startAnchorCheck_exists_of_ne_nil (input : List Char)
    (ps : List CharacterClass) (hne : input ≠ []) :
    ∃ b, startAnchorCheck input ps = some b := by
  cases hh : ps.head? with
  | none => exact ⟨true, by simp [startAnchorCheck, hh]⟩
  | some x =>
      cases x with
      | StartAnchor c =>
          cases input with
          | nil => exact absurd rfl hne
          | cons a rest =>
              refine ⟨match_pattern [a] (CharacterClass.StartAnchor c), ?_⟩
              simp [startAnchorCheck, hh]
      | Literal c => exact ⟨true, by simp [startAnchorCheck, hh]⟩
      | CharGroup s => exact ⟨true, by simp [startAnchorCheck, hh]⟩
      | NegativeCharGroup s => exact ⟨true, by simp [startAnchorCheck, hh]⟩
      | Digit => exact ⟨true, by simp [startAnchorCheck, hh]⟩
      | Alphanumeric => exact ⟨true, by simp [startAnchorCheck, hh]⟩
      | EndAnchor cc => exact ⟨true, by simp [startAnchorCheck, hh]⟩
      | OneOrMore cc => exact ⟨true, by simp [startAnchorCheck, hh]⟩

theorem endAnchorCheck_exists_of_ne_nil (input : List Char)
    (ps : List CharacterClass) (hne : input ≠ []) :
    ∃ b, endAnchorCheck input ps = some b := by
  cases hh : ps.getLast? with
  | none => exact ⟨true, by simp [endAnchorCheck, hh]⟩
  | some x =>
      cases x with
      | EndAnchor cc =>
          cases hgl : input.getLast? with
          | none => exact absurd (List.getLast?_eq_none_iff.mp hgl) hne
          | some a =>
              refine ⟨match_pattern [a] (CharacterClass.EndAnchor cc), ?_⟩
              simp [endAnchorCheck, hh, hgl]
      | Literal c => exact ⟨true, by simp [endAnchorCheck, hh]⟩
      | CharGroup s => exact ⟨true, by simp [endAnchorCheck, hh]⟩
      | NegativeCharGroup s => exact ⟨true, by simp [endAnchorCheck, hh]⟩
      | Digit => exact ⟨true, by simp [endAnchorCheck, hh]⟩
      | Alphanumeric => exact ⟨true, by simp [endAnchorCheck, hh]⟩
      | StartAnchor c => exact ⟨true, by simp [endAnchorCheck, hh]⟩
      | OneOrMore cc => exact ⟨true, by simp [endAnchorCheck, hh]⟩

theorem startAnchorCheck_empty_line (ps : List CharacterClass) :
    startAnchorCheck [] ps = none ∨ startAnchorCheck [] ps = some true := by
  unfold startAnchorCheck
  split
  · exact Or.inl rfl
  · exact Or.inr rfl

/-- C1: for pattern `a+a` and input line `aaa`, `matches` returns `false`: the
greedy quantifier consumes every contiguous `a`, never returning characters to
the trailing literal `a`, so no start offset succeeds. -/
theorem claim_C1_no_backtracking :
    pattern_matches ['a', 'a', 'a'] ['a', '+', 'a'] = some false := by
  simp [pattern_matches, parse_pattern, parse_pattern_loop, startAnchorCheck,
    endAnchorCheck, walk, handle_quantifier, match_pattern, List.range_succ]

/-- C2: for pattern `a+b` and input line `aaab`, `matches` returns `true`: the
`OneOrMore` node greedily consumes all three `a`s and the following literal `b`
node then matches. -/
theorem claim_C2_greedy_quantifier :
    pattern_matches ['a', 'a', 'a', 'b'] ['a', '+', 'b'] = some true := by
  simp [pattern_matches, parse_pattern, parse_pattern_loop, startAnchorCheck,
    endAnchorCheck, walk, handle_quantifier, match_pattern, List.range_succ]

/-- C10: for the pattern consisting solely of `$`, compilation succeeds with
the empty node sequence instead of raising a `CompileError`: the pop of the
most recently compiled node is silently skipped when the sequence is empty. -/
theorem claim_C10_lone_dollar_empty_sequence : parse_pattern ['$'] = some [] := by
  simp [parse_pattern, parse_pattern_loop]

/-- C7: compilation is a deterministic, pure function of the pattern string:
compiling the same pattern twice yields structurally identical node
sequences. -/
theorem claim_C7_deterministic_compile (p : List Char)
    (ps1 ps2 : List CharacterClass)
    (h1 : parse_pattern p = some ps1) (h2 : parse_pattern p = some ps2) :
    ps1 = ps2 := by
  rw [h1] at h2
  exact Option.some.inj h2

/-- C7 witness: both compilations of the pattern `a` yield `[Literal 'a']`. -/
theorem claim_C7_witness :
    ([CharacterClass.Literal 'a'] : List CharacterClass) =
      [CharacterClass.Literal 'a'] :=
  claim_C7_deterministic_compile ['a'] [CharacterClass.Literal 'a']
    [CharacterClass.Literal 'a']
    (by simp [parse_pattern, parse_pattern_loop])
    (by simp [parse_pattern, parse_pattern_loop])

/-- C5 counterexample: the pattern consisting solely of `^` makes compilation
fail (the parser unwraps a missing payload character), yet it falls under none
of the five failure cases listed by the claim (`^` here IS the first character
of the pattern), as the literal spec scanner records. -/
theorem claim_C5_counterexample :
    parse_pattern ['^'] = none ∧ specScan false ['^'] false = false := by
  constructor
  · simp [parse_pattern, parse_pattern_loop]
  · simp [specScan]

/-- C5 (amended): compilation fails exactly on: an escape whose following
character is missing or not one of `d w \ [ ^ $ +`; an unclosed bracket group;
`^` anywhere but as the first character, or as a first character with no
following payload character; `$` anywhere but last; and `+` with no preceding
node — i.e. exactly when the strict spec scanner reports failure. -/
theorem claim_C5_compile_failure_characterization (p : List Char) :
    parse_pattern p = none ↔ specScan true p false = true := by
  have h := parse_loop_isNone_eq_specScan p []
  simp only [List.isEmpty_nil, Bool.not_true] at h
  rw [parse_pattern, ← h]
  cases parse_pattern_loop p [] <;> simp

/-- C5 witness: a lone backslash is rejected by the compiler, as the amended
characterization predicts. -/
theorem claim_C5_witness : parse_pattern ['\\'] = none :=
  (claim_C5_compile_failure_characterization ['\\']).mpr (by simp [specScan])

/-- C6 counterexample: the bracket group `[aab]` compiles to a `CharGroup`
whose payload `"aab"` repeats the character `a`, so compiled group payloads do
NOT hold distinct characters. -/
theorem claim_C6_counterexample :
    parse_pattern ['[', 'a', 'a', 'b', ']'] =
        some [CharacterClass.CharGroup ['a', 'a', 'b']] ∧
      ¬ (['a', 'a', 'b'] : List Char).Nodup := by
  constructor
  · simp [parse_pattern, parse_pattern_loop, collect_until]
  · decide

/-- C6 (amended): group payloads are the bracket characters as written, with
duplicates kept, but matching behaviour of `CharGroup` and `NegatedCharGroup`
depends only on the SET of payload characters, not on their order or
multiplicity. -/
theorem claim_C6_group_set_semantics (g1 g2 input : List Char)
    (hset : ∀ c, c ∈ g1 ↔ c ∈ g2) :
    match_pattern input (CharacterClass.CharGroup g1) =
        match_pattern input (CharacterClass.CharGroup g2) ∧
      match_pattern input (CharacterClass.NegativeCharGroup g1) =
        match_pattern input (CharacterClass.NegativeCharGroup g2) := by
  have hany : g1.any (fun c => input.contains c) =
      g2.any (fun c => input.contains c) := by
    cases h1 : g1.any (fun c => input.contains c) <;>
      cases h2 : g2.any (fun c => input.contains c)
    · rfl
    · obtain ⟨c, hc, hcc⟩ := List.any_eq_true.mp h2
      have hf := List.any_eq_false.mp h1 c ((hset c).mpr hc)
      exact absurd hcc hf
    · obtain ⟨c, hc, hcc⟩ := List.any_eq_true.mp h1
      have hf := List.any_eq_false.mp h2 c ((hset c).mp hc)
      exact absurd hcc hf
    · rfl
  constructor
  · simp only [match_pattern, hany]
  · simp only [match_pattern, hany]

/-- C6 witness: the groups `ab` and `baa` have the same character set, and both
group kinds agree on the input `b`. -/
theorem claim_C6_witness :
    (match_pattern ['b'] (CharacterClass.CharGroup ['a', 'b']) =
        match_pattern ['b'] (CharacterClass.CharGroup ['b', 'a', 'a'])) ∧
      (match_pattern ['b'] (CharacterClass.NegativeCharGroup ['a', 'b']) =
        match_pattern ['b'] (CharacterClass.NegativeCharGroup ['b', 'a', 'a'])) :=
  claim_C6_group_set_semantics ['a', 'b'] ['b', 'a', 'a'] ['b']
    (by
      intro c
      simp [List.mem_cons]
      tauto)

/-- C3: whenever the compiled node sequence contains a `StartAnchor` element,
any non-empty line whose first character differs from the anchor's payload is
rejected, regardless of the rest of the line (the anchor can only ever sit at
the head of the sequence, where the pre-check tests the first character). -/
theorem claim_C3_start_anchor_rejects (pat : List Char)
    (ps : List CharacterClass) (c x : Char) (rest : List Char)
    (hp : parse_pattern pat = some ps)
    (hmem : CharacterClass.StartAnchor c ∈ ps)
    (hx : x ≠ c) :
    pattern_matches (x :: rest) pat = some false := by
  have hhd := parse_startAnchor_head hp hmem
  have hb : (x == c) = false := beq_eq_false_iff_ne.mpr hx
  have hsc : startAnchorCheck (x :: rest) ps = some false := by
    simp [startAnchorCheck, hhd, match_pattern, hb]
  simp only [pattern_matches, hp, hsc]

/-- C3 witness: pattern `^a` on the line `x`. -/
theorem claim_C3_witness : pattern_matches ['x'] ['^', 'a'] = some false :=
  claim_C3_start_anchor_rejects ['^', 'a'] [CharacterClass.StartAnchor 'a']
    'a' 'x' [] (by simp [parse_pattern, parse_pattern_loop]) (by simp)
    (by decide)

/-- C9: on the empty line, any pattern whose compiled sequence begins with a
`StartAnchor` or ends with an `EndAnchor` makes `matches` fail at run time
(the pre-checks slice `input[0..1]` resp. `input[len-1..len]`), modelled as
`none`, rather than return a boolean. -/
theorem claim_C9_empty_line_panics (pat : List Char)
    (ps : List CharacterClass)
    (hp : parse_pattern pat = some ps)
    (h : (∃ c, ps.head? = some (CharacterClass.StartAnchor c)) ∨
      (∃ cc, ps.getLast? = some (CharacterClass.EndAnchor cc))) :
    pattern_matches [] pat = none := by
  simp only [pattern_matches, hp]
  rcases h with ⟨c, hhd⟩ | ⟨cc, hlast⟩
  · have hsc : startAnchorCheck [] ps = none := by simp [startAnchorCheck, hhd]
    rw [hsc]
  · rcases startAnchorCheck_empty_line ps with hsc | hsc
    · rw [hsc]
    · have hec : endAnchorCheck [] ps = none := by simp [endAnchorCheck, hlast]
      rw [hsc, hec]

/-- C9 witness: pattern `^a` on the empty line. -/
theorem claim_C9_witness : pattern_matches [] ['^', 'a'] = none :=
  claim_C9_empty_line_panics ['^', 'a'] [CharacterClass.StartAnchor 'a']
    (by simp [parse_pattern, parse_pattern_loop]) (Or.inl ⟨'a', rfl⟩)

/-- C8: the pattern `[^xyz]` rejects every non-empty line drawn entirely from
the characters `x`, `y`, `z`. -/
theorem claim_C8_negative_group (input : List Char) (hne : input ≠ [])
    (hmem : ∀ ch ∈ input, ch = 'x' ∨ ch = 'y' ∨ ch = 'z') :
    pattern_matches input ['[', '^', 'x', 'y', 'z', ']'] = some false := by
  have hp : parse_pattern ['[', '^', 'x', 'y', 'z', ']'] =
      some [CharacterClass.NegativeCharGroup ['x', 'y', 'z']] := by
    simp [parse_pattern, parse_pattern_loop, collect_until]
  have hsc : startAnchorCheck input
      [CharacterClass.NegativeCharGroup ['x', 'y', 'z']] = some true := rfl
  have hec : endAnchorCheck input
      [CharacterClass.NegativeCharGroup ['x', 'y', 'z']] = some true := rfl
  have hany : (List.range input.length).any
      (fun i => walk (input.drop i)
        [CharacterClass.NegativeCharGroup ['x', 'y', 'z']]) = false := by
    apply List.any_eq_false.mpr
    intro i hi
    have hilt := List.mem_range.mp hi
    rw [List.drop_eq_getElem_cons hilt]
    have hin : input[i] ∈ input := List.getElem_mem hilt
    have hval := hmem _ hin
    simp [walk, match_pattern]
    rcases hval with h | h | h <;> simp [h]
  simp only [pattern_matches, hp, hsc, hec, hany]

/-- C8 witness: the line `xy`. -/
theorem claim_C8_witness :
    pattern_matches ['x', 'y'] ['[', '^', 'x', 'y', 'z', ']'] = some false :=
  claim_C8_negative_group ['x', 'y'] (by simp) (by decide)

/-- C4 counterexample: for pattern `a$` on the EMPTY line no start offset can
succeed, yet `matches` does not return `false`: the `EndAnchor` pre-check
slices `input[len-1..len]` on length 0 and fails at run time (`none`). -/
theorem claim_C4_counterexample :
    parse_pattern ['a', '$'] =
        some [CharacterClass.EndAnchor (CharacterClass.Literal 'a')] ∧
      pattern_matches [] ['a', '$'] = none := by
  constructor
  · simp [parse_pattern, parse_pattern_loop]
  · simp [pattern_matches, parse_pattern, parse_pattern_loop, startAnchorCheck,
      endAnchorCheck]

/-- C4 (amended): for every pattern whose compiled sequence ends in an
`EndAnchor` and every NON-EMPTY line (the empty line panics in the pre-check
instead), `matches` returns `true` only when some start offset's walk ends
with no input characters left unconsumed, and if no start offset's walk
succeeds then `matches` returns `false`. -/
theorem claim_C4_end_anchor_no_leftover (pat input : List Char)
    (ps : List CharacterClass) (cc : CharacterClass)
    (hp : parse_pattern pat = some ps)
    (hlast : ps.getLast? = some (CharacterClass.EndAnchor cc))
    (hne : input ≠ []) :
    (pattern_matches input pat = some true →
      ∃ i, i < input.length ∧ walkRem (input.drop i) ps = some []) ∧
    ((∀ i, i < input.length → walkRem (input.drop i) ps = none) →
      pattern_matches input pat = some false) := by
  have hps : ps ≠ [] := by
    intro hnil
    rw [hnil] at hlast
    simp at hlast
  cases ps with
  | nil => exact absurd rfl hps
  | cons p ptail =>
    constructor
    · intro htrue
      simp only [pattern_matches, hp] at htrue
      cases hsc : startAnchorCheck input (p :: ptail) with
      | none => rw [hsc] at htrue; simp at htrue
      | some b =>
          cases b with
          | false => rw [hsc] at htrue; simp at htrue
          | true =>
              rw [hsc] at htrue
              cases hec : endAnchorCheck input (p :: ptail) with
              | none => rw [hec] at htrue; simp at htrue
              | some b2 =>
                  cases b2 with
                  | false => rw [hec] at htrue; simp at htrue
                  | true =>
                      rw [hec] at htrue
                      simp only [Option.some.injEq] at htrue
                      obtain ⟨i, hi, hw⟩ := List.any_eq_true.mp htrue
                      refine ⟨i, List.mem_range.mp hi, ?_⟩
                      rw [walk_eq_isSome] at hw
                      cases hrem : walkRem (input.drop i) (p :: ptail) with
                      | none => rw [hrem] at hw; simp at hw
                      | some rem =>
                          have hnil2 := walkRem_endAnchor_nil hlast hrem
                          subst hnil2
                          rfl
    · intro hfail
      obtain ⟨b, hsc⟩ := startAnchorCheck_exists_of_ne_nil input (p :: ptail) hne
      obtain ⟨b2, hec⟩ := endAnchorCheck_exists_of_ne_nil input (p :: ptail) hne
      have hany : (List.range input.length).any
          (fun i => walk (input.drop i) (p :: ptail)) = false := by
        apply List.any_eq_false.mpr
        intro i hi
        rw [walk_eq_isSome, hfail i (List.mem_range.mp hi)]
        simp
      cases b with
      | false => simp only [pattern_matches, hp, hsc]
      | true =>
          cases b2 with
          | false => simp only [pattern_matches, hp, hsc, hec]
          | true => simp only [pattern_matches, hp, hsc, hec, hany]

/-- C4 witness: pattern `a$` on the line `ba`. -/
theorem claim_C4_witness :
    (pattern_matches ['b', 'a'] ['a', '$'] = some true →
      ∃ i, i < (['b', 'a'] : List Char).length ∧
        walkRem (List.drop i ['b', 'a'])
          [CharacterClass.EndAnchor (CharacterClass.Literal 'a')] = some []) ∧
    ((∀ i, i < (['b', 'a'] : List Char).length →
        walkRem (List.drop i ['b', 'a'])
          [CharacterClass.EndAnchor (CharacterClass.Literal 'a')] = none) →
      pattern_matches ['b', 'a'] ['a', '$'] = some false) :=
  claim_C4_end_anchor_no_leftover ['a', '$'] ['b', 'a']
    [CharacterClass.EndAnchor (CharacterClass.Literal 'a')]
    (CharacterClass.Literal 'a')
    (by simp [parse_pattern, parse_pattern_loop]) (by simp) (by simp)
